import Mathlib

/-!
Shallow embedding of `src/MonteCarlo.py` from the repository
`monte-carlo-european-option-pricing`.

Python floats are modelled as elements of a linear ordered field `R`.  The
transcendental library functions the source calls — `np.log`, `np.sqrt`,
`np.float_power(e, ·)` (the exponential) and `scipy.stats.norm.cdf` (the
standard normal CDF `Φ`) — are external to the repository, so they are
modelled as explicit function parameters `log`, `sqrt`, `exp`, `Phi`;
every property proved below holds for all of them, hence in particular
for the real transcendental functions.  Keeping the field generic keeps
every definition executable, so that concrete witnesses can be evaluated
over `ℚ`.

Python's local-variable semantics — reading a local that was never
assigned on the executed path raises `UnboundLocalError` — is modelled by
giving the local the type `Option R` and threading the possible error
through `Except`.  NumPy's broadcasting of scalars against 1-d arrays is
modelled by the `NpArr` type with a broadcasting binary operation.
Division by zero follows the field convention `x / 0 = 0`, standing in
for the IEEE infinity/NaN that NumPy would propagate.
-/

namespace MonteCarloPy

/-- Errors the Python runtime can raise in the embedded code. -/
inductive PyErr where
  | unboundLocalError : PyErr
  deriving DecidableEq, Repr

section Embedding

variable {R : Type} [LinearOrderedField R]

/-- Mirrors the `Option` class of `MonteCarlo.py`: the six stored attributes.
The field names follow the Python attributes, including the attribute
`putOrcall` (note the lowercase `c`) assigned in `__init__`. -/
structure Option' (R : Type) where
  K : R
  T : R
  S_0 : R
  r : R
  sigma : R
  putOrcall : String

/-- Mirrors Python's `str.lower()` on the ASCII strings the program deals
with: every character is lowercased. -/
def strLower (s : String) : String := ⟨s.data.map Char.toLower⟩

/-- Mirrors `Option.__init__`: stores the numeric parameters unchanged and
stores `putOrCall.lower()`; no validation of any kind is performed. -/
def Option'.init (K T S_0 r sigma : R) (putOrCall : String) : Option' R :=
  { K := K, T := T, S_0 := S_0, r := r, sigma := sigma,
    putOrcall := strLower putOrCall }

/-- Reading a Python local variable: yields its value when it has been
assigned on the executed path, and raises `UnboundLocalError` otherwise. -/
def localRead (v : Option R) : Except PyErr R :=
  match v with
  | some x => Except.ok x
  | none => Except.error PyErr.unboundLocalError

/-- Mirrors `Option.calc_black_scholes_merton`.  `log`, `sqrt`, `exp`, `Phi`
stand for `np.log`, `np.sqrt`, `np.float_power(e, ·)` and
`scipy.stats.norm.cdf`.  The local `discount_factor` is assigned only inside
the `call` branch of the Python source; the `else` branch reads it unassigned,
which the embedding renders by reading the outer `none` binding. -/
def calc_black_scholes_merton (log sqrt exp Phi : R → R) (o : Option' R) :
    Except PyErr R :=
  let d_1 := (log (o.S_0 / o.K) + (o.r + (o.sigma ^ 2) / 2) * o.T) /
      (o.sigma * sqrt o.T)
  let d_2 := d_1 - o.sigma * sqrt o.T
  let discount_factor : Option R := none
  if o.putOrcall = "call" then
    let discount_factor : Option R := some (-o.r * o.T)
    do
      let df ← localRead discount_factor
      pure ((o.S_0 * Phi d_1) - (o.K * exp df * d_2))
  else
    do
      let df ← localRead discount_factor
      pure ((o.K * exp df * Phi (-d_2)) - (o.S_0 * Phi (-d_1)))

/-- A NumPy value that is either a scalar or a 1-d array. -/
inductive NpArr (R : Type) where
  | scalar : R → NpArr R
  | vec : List R → NpArr R

/-- NumPy broadcasting of a binary elementwise operation. -/
def bcast (f : R → R → R) : NpArr R → NpArr R → NpArr R
  | NpArr.scalar a, NpArr.scalar b => NpArr.scalar (f a b)
  | NpArr.scalar a, NpArr.vec ys => NpArr.vec (ys.map (fun b => f a b))
  | NpArr.vec xs, NpArr.scalar b => NpArr.vec (xs.map (fun a => f a b))
  | NpArr.vec xs, NpArr.vec ys => NpArr.vec (List.zipWith f xs ys)

/-- Mirrors `np.random.normal(0, np.sqrt(dt), num_simulations)` at step `n`:
a vector of `N` draws from a normal with standard deviation `sqrt dt`,
modelled as `sqrt dt` times a standard normal draw `normals n i`. -/
def deltaVec (sqrt : R → R) (dt : R) (normals : ℕ → ℕ → R) (N n : ℕ) :
    List R :=
  (List.range N).map (fun i => sqrt dt * normals n i)

/-- One iteration of the loop body of `simulate`:
`d_S = S_t + (option.r * dt) + (option.sigma * option.S_0 * delta_z)`. -/
def simStep (o : Option' R) (dt : R) (S_t : NpArr R) (delta_z : List R) :
    NpArr R :=
  bcast (fun a b => a + b)
    (bcast (fun a b => a + b) S_t (NpArr.scalar (o.r * dt)))
    (bcast (fun a b => a * b) (NpArr.scalar (o.sigma * o.S_0))
      (NpArr.vec delta_z))

/-- The `while n <= num_simulations` loop of `simulate`, with `n` the current
step index and `k` the number of iterations still to run; each iteration
appends `d_S` to the output and reassigns `S_t := d_S`. -/
def simAux (sqrt : R → R) (o : Option' R) (dt : R) (normals : ℕ → ℕ → R)
    (N : ℕ) : ℕ → ℕ → NpArr R → List (NpArr R)
  | _, 0, _ => []
  | n, k + 1, S_t =>
    let d_S := simStep o dt S_t (deltaVec sqrt dt normals N n)
    d_S :: simAux sqrt o dt normals N (n + 1) k d_S

/-- Mirrors `simulate(num_simulations, option, dt)`: the running level `S_t`
starts as the scalar `S_0` and the loop runs for `n = 1 .. num_simulations`. -/
def simulate (sqrt : R → R) (num_simulations : ℕ) (o : Option' R) (dt : R)
    (normals : ℕ → ℕ → R) : List (NpArr R) :=
  simAux sqrt o dt normals num_simulations 1 num_simulations
    (NpArr.scalar o.S_0)

/-- Mirrors `calc_expected_price(simulated_paths, option)`: elementwise payoff
over the 2-d array, `np.average` over all entries (sum over the flattened
array divided by its length, the division-by-zero convention standing in for
NumPy's undefined mean of an empty array), discounted by `e^(-r T)` where
`exp` stands for `np.float_power(e, ·)`. -/
def calc_expected_price (exp : R → R) (simulated_paths : List (List R))
    (o : Option' R) : R :=
  let payoffs :=
    if o.putOrcall = "call" then
      simulated_paths.map (fun row => row.map (fun x => max (x - o.K) 0))
    else
      simulated_paths.map (fun row => row.map (fun x => max (o.K - x) 0))
  let discount_factor := -1 * o.r * o.T
  (payoffs.flatten.sum / (payoffs.flatten.length : R)) * exp discount_factor

/-- The quantity `d1` exactly as the spec defines it:
`d1 = (ln(S0/K) + (r + sigma^2/2)*T) / (sigma*sqrt(T))`. -/
def d1BSM (log sqrt : R → R) (o : Option' R) : R :=
  (log (o.S_0 / o.K) + (o.r + o.sigma ^ 2 / 2) * o.T) / (o.sigma * sqrt o.T)

/-- The quantity `d2 = d1 - sigma*sqrt(T)` exactly as the spec defines it. -/
def d2BSM (log sqrt : R → R) (o : Option' R) : R :=
  d1BSM log sqrt o - o.sigma * sqrt o.T

/-- The elementwise payoff exactly as the spec describes it:
`max(price - K, 0)` for a call and `max(K - price, 0)` otherwise. -/
def payoffSpec (o : Option' R) (x : R) : R :=
  if o.putOrcall = "call" then max (x - o.K) 0 else max (o.K - x) 0

end Embedding

/-! Concrete fixtures over `ℚ` used by the witness theorems. -/

/-- The identity function on `ℚ`, a concrete stand-in for the external
transcendental functions in witnesses. -/
def qid : ℚ → ℚ := fun x => x

/-- The constant-one function on `ℚ`, a concrete stand-in for `np.sqrt`. -/
def qone : ℚ → ℚ := fun _ => 1

/-- A concrete stream of standard normal draws, identically zero. -/
def normZero : ℕ → ℕ → ℚ := fun _ _ => 0

/-- A concrete call option: `Option(K=100, T=1, S_0=100, r=1/20, sigma=1/5,
putOrCall="call")`. -/
def oC : Option' ℚ :=
  { K := 100, T := 1, S_0 := 100, r := 1 / 20, sigma := 1 / 5,
    putOrcall := "call" }

/-- A concrete put option: `Option(K=100, T=1, S_0=100, r=1/20, sigma=1/5,
putOrCall="put")`. -/
def oPut : Option' ℚ :=
  { K := 100, T := 1, S_0 := 100, r := 1 / 20, sigma := 1 / 5,
    putOrcall := "put" }

/-- The first row `simulate` produces on the fixture inputs. -/
def v0 : List ℚ :=
  (List.range 2).map
    (fun i => oC.S_0 + oC.r * 1 + oC.sigma * oC.S_0 * (qone 1 * normZero 1 i))

/-- A concrete all-equal simulated-path array whose every entry is `200`. -/
def pathsW : List (List ℚ) := [[200, 200], [200]]

/-- C1: for every option whose stored kind is `"call"` with `sigma > 0` and
`T > 0`, `calc_black_scholes_merton` returns the legacy value
`S0*Phi(d1) - K*e^(-r*T)*d2` — the discount factor is multiplied by the raw
value `d2` rather than by `Phi(d2)` — with `d1` and `d2` as the spec defines
them. -/
theorem calc_bsm_call_legacy {R : Type} [LinearOrderedField R]
    (log sqrt exp Phi : R → R) (o : Option' R) (hk : o.putOrcall = "call")
    (_hs : 0 < o.sigma) (_hT : 0 < o.T) :
    calc_black_scholes_merton log sqrt exp Phi o =
      Except.ok (o.S_0 * Phi (d1BSM log sqrt o) -
        o.K * exp (-(o.r * o.T)) * d2BSM log sqrt o) := by
  simp [calc_black_scholes_merton, hk, localRead, d1BSM, d2BSM, neg_mul]

/-- Witness for C1 at the concrete call option `oC`, with the identity
standing in for the external transcendental functions. -/
theorem calc_bsm_call_legacy_witness :
    (oC.putOrcall = "call" ∧ (0 : ℚ) < oC.sigma ∧ (0 : ℚ) < oC.T) ∧
    calc_black_scholes_merton qid qid qid qid oC =
      Except.ok (oC.S_0 * qid (d1BSM qid qid oC) -
        oC.K * qid (-(oC.r * oC.T)) * d2BSM qid qid oC) :=
  ⟨⟨rfl, by norm_num [oC], by norm_num [oC]⟩,
    calc_bsm_call_legacy qid qid qid qid oC rfl (by norm_num [oC])
      (by norm_num [oC])⟩

/-- C2 (failing-input evaluation): at the concrete put option `oPut` the
code does not return `K*e^(-r*T)*Phi(-d2) - S0*Phi(-d1)`; it raises
`UnboundLocalError`, because `discount_factor` is assigned only in the call
branch. -/
theorem calc_bsm_put_raises_unbound :
    calc_black_scholes_merton qid qid qid qid oPut =
      Except.error PyErr.unboundLocalError := rfl

/-- C3: for every option whose stored kind is not exactly `"call"`,
`calc_black_scholes_merton` never returns a value: the else branch reads the
local `discount_factor`, assigned only inside the call branch, so the call
raises `UnboundLocalError` regardless of the numeric parameters. -/
theorem calc_bsm_noncall_unbound {R : Type} [LinearOrderedField R]
    (log sqrt exp Phi : R → R) (o : Option' R) (h : o.putOrcall ≠ "call") :
    calc_black_scholes_merton log sqrt exp Phi o =
      Except.error PyErr.unboundLocalError := by
  simp [calc_black_scholes_merton, h, localRead]

/-- Witness for C3 at the concrete put option `oPut`. -/
theorem calc_bsm_noncall_unbound_witness :
    oPut.putOrcall ≠ "call" ∧
    calc_black_scholes_merton qid qid qid qid oPut =
      Except.error PyErr.unboundLocalError :=
  ⟨by decide, calc_bsm_noncall_unbound qid qid qid qid oPut (by decide)⟩

/-- C7 (failing-input evaluation): with `sigma = 0` (first conjunct) or
`T = 0` (second conjunct) and kind `"call"`, `calc_black_scholes_merton`
raises no error at all: it returns an ordinary value computed through the
division by zero in `d1`, for every choice of the numeric parameters and of
the external functions. -/
theorem calc_bsm_degenerate_returns_value {R : Type} [LinearOrderedField R]
    (log sqrt exp Phi : R → R) (K T S_0 r sigma : R) :
    (∃ v, calc_black_scholes_merton log sqrt exp Phi
        (Option'.init K T S_0 r 0 "call") = Except.ok v) ∧
    (∃ v, calc_black_scholes_merton log sqrt exp Phi
        (Option'.init K 0 S_0 r sigma "call") = Except.ok v) :=
  ⟨⟨_, rfl⟩, ⟨_, rfl⟩⟩

/-- C8 (failing-input evaluation): on an empty collection of simulated values
`calc_expected_price` does not fail; it returns a value for every option
(the undefined mean `0/0` rendered by the division-by-zero convention, NaN in
NumPy). -/
theorem calc_expected_price_empty {R : Type} [LinearOrderedField R]
    (exp : R → R) (o : Option' R) :
    calc_expected_price exp [] o = 0 := by
  simp [calc_expected_price]

/-- C9 (failing-input evaluation): constructing an `Option` with the kind
`"banana"`, outside `{call, put}`, succeeds — the constructor stores the
lowercased kind without validation — and `calc_expected_price` then silently
treats the option exactly like a put. -/
theorem init_accepts_invalid_kind {R : Type} [LinearOrderedField R]
    (exp : R → R) (K T S_0 r sigma : R) (paths : List (List R)) :
    (Option'.init K T S_0 r sigma "banana").putOrcall = "banana" ∧
    calc_expected_price exp paths (Option'.init K T S_0 r sigma "banana") =
      calc_expected_price exp paths (Option'.init K T S_0 r sigma "put") :=
  ⟨rfl, rfl⟩

/-- The per-step shock vector always has the requested length. -/
lemma deltaVec_length {R : Type} [LinearOrderedField R] (sqrt : R → R)
    (dt : R) (normals : ℕ → ℕ → R) (N n : ℕ) :
    (deltaVec sqrt dt normals N n).length = N := by
  simp [deltaVec]

/-- The loop body applied to a scalar running level broadcasts it over the
shock vector. -/
lemma simStep_scalar {R : Type} [LinearOrderedField R] (o : Option' R)
    (dt s : R) (dz : List R) :
    simStep o dt (NpArr.scalar s) dz =
      NpArr.vec (dz.map (fun z => s + o.r * dt + o.sigma * o.S_0 * z)) := by
  simp [simStep, bcast, List.map_map, Function.comp]

/-- The loop body applied to a vector running level acts elementwise. -/
lemma simStep_vec {R : Type} [LinearOrderedField R] (o : Option' R)
    (dt : R) (v dz : List R) :
    simStep o dt (NpArr.vec v) dz =
      NpArr.vec (List.zipWith (fun p z => p + o.r * dt + o.sigma * o.S_0 * z)
        v dz) := by
  simp [simStep, bcast, List.zipWith_map]

/-- The loop body turns any well-shaped running level into a vector of the
shock vector's length. -/
lemma simStep_shape {R : Type} [LinearOrderedField R] (o : Option' R)
    (dt : R) (S : NpArr R) (dz : List R) (N : ℕ)
    (hS : ∀ v, S = NpArr.vec v → v.length = N) (hdz : dz.length = N) :
    ∃ w, simStep o dt S dz = NpArr.vec w ∧ w.length = N := by
  cases S with
  | scalar s => exact ⟨_, simStep_scalar o dt s dz, by simp [hdz]⟩
  | vec v =>
    exact ⟨_, simStep_vec o dt v dz, by simp [hS v rfl, hdz]⟩

/-- The loop runs exactly as many iterations as requested. -/
lemma simAux_length {R : Type} [LinearOrderedField R] (sqrt : R → R)
    (o : Option' R) (dt : R) (normals : ℕ → ℕ → R) (N : ℕ) :
    ∀ (k n : ℕ) (S : NpArr R),
      (simAux sqrt o dt normals N n k S).length = k := by
  intro k
  induction k with
  | zero => intro n S; rfl
  | succ k ih => intro n S; simp [simAux, ih]

/-- Every element the loop appends is a vector of length `N`, provided the
incoming running level is a scalar or a vector of length `N`. -/
lemma simAux_rows_vec {R : Type} [LinearOrderedField R] (sqrt : R → R)
    (o : Option' R) (dt : R) (normals : ℕ → ℕ → R) (N : ℕ) :
    ∀ (k n : ℕ) (S : NpArr R), (∀ v, S = NpArr.vec v → v.length = N) →
      ∀ a ∈ simAux sqrt o dt normals N n k S,
        ∃ w, a = NpArr.vec w ∧ w.length = N := by
  intro k
  induction k with
  | zero => intro n S _ a ha; simp [simAux] at ha
  | succ k ih =>
    intro n S hS a ha
    obtain ⟨w, hw, hwlen⟩ :=
      simStep_shape o dt S (deltaVec sqrt dt normals N n) N hS
        (deltaVec_length sqrt dt normals N n)
    simp only [simAux, List.mem_cons] at ha
    rcases ha with ha | ha
    · exact ⟨w, by rw [ha, hw], hwlen⟩
    · exact ih (n + 1) _ (fun v hv => by rw [hw] at hv; cases hv; exact hwlen)
        a ha

/-- The first element the loop produces is the loop body applied to the
incoming running level. -/
lemma simAux_get_zero {R : Type} [LinearOrderedField R] (sqrt : R → R)
    (o : Option' R) (dt : R) (normals : ℕ → ℕ → R) (N : ℕ)
    (k m : ℕ) (S : NpArr R) (hk : 0 < k) :
    (simAux sqrt o dt normals N m k S)[0]? =
      some (simStep o dt S (deltaVec sqrt dt normals N m)) := by
  rcases k with _ | k
  · omega
  · simp [simAux]

/-- Each element the loop produces after the first is the loop body applied
to the previous element. -/
lemma simAux_get_succ {R : Type} [LinearOrderedField R] (sqrt : R → R)
    (o : Option' R) (dt : R) (normals : ℕ → ℕ → R) (N : ℕ) :
    ∀ (k n m : ℕ) (S : NpArr R) (v : List R),
      (simAux sqrt o dt normals N m k S)[n]? = some (NpArr.vec v) →
      n + 1 < k →
      (simAux sqrt o dt normals N m k S)[n + 1]? =
        some (simStep o dt (NpArr.vec v)
          (deltaVec sqrt dt normals N (m + n + 1))) := by
  intro k
  induction k with
  | zero => intro n m S v _ hn; omega
  | succ k ih =>
    intro n m S v hv hn
    cases n with
    | zero =>
      simp only [simAux, List.getElem?_cons_zero, Option.some.injEq] at hv
      rcases k with _ | k
      · omega
      · simp only [simAux, List.getElem?_cons_succ, List.getElem?_cons_zero,
          hv]
    | succ j =>
      simp only [simAux, List.getElem?_cons_succ] at hv ⊢
      have h := ih j (m + 1) _ v hv (by omega)
      rw [h]
      have e : m + 1 + j + 1 = m + (j + 1) + 1 := by omega
      rw [e]

/-- C4: for every positive count `N`, every option and every `dt > 0`,
`simulate` returns exactly `N` top-level elements, each a vector of length
exactly `N` — `N * N` sampled values in total. -/
theorem simulate_shape {R : Type} [LinearOrderedField R] (sqrt : R → R)
    (N : ℕ) (o : Option' R) (dt : R) (normals : ℕ → ℕ → R)
    (_hN : 0 < N) (_hdt : 0 < dt) :
    (simulate sqrt N o dt normals).length = N ∧
    ∀ a ∈ simulate sqrt N o dt normals,
      ∃ w, a = NpArr.vec w ∧ w.length = N := by
  constructor
  · exact simAux_length sqrt o dt normals N N 1 (NpArr.scalar o.S_0)
  · exact simAux_rows_vec sqrt o dt normals N N 1 (NpArr.scalar o.S_0)
      (fun v hv => by cases hv)

/-- Witness for C4 at `N = 2`, `dt = 1` over `ℚ`. -/
theorem simulate_shape_witness :
    ((0 : ℕ) < 2 ∧ (0 : ℚ) < 1) ∧
    ((simulate qone 2 oC 1 normZero).length = 2 ∧
      ∀ a ∈ simulate qone 2 oC 1 normZero,
        ∃ w, a = NpArr.vec w ∧ w.length = 2) :=
  ⟨⟨by norm_num, by norm_num⟩,
    simulate_shape qone 2 oC 1 normZero (by norm_num) (by norm_num)⟩

/-- C5: the rows of `simulate` follow the documented recurrence: the first
row is `S0 + r*dt + sigma*S0*Z_1` over the scaled shock vector `Z_1`, and
each later row is the previous row plus `r*dt + sigma*S0*Z_n` elementwise —
the running level starts at the scalar `S0` and is reassigned to each
produced vector. -/
theorem simulate_rows_recurrence {R : Type} [LinearOrderedField R]
    (sqrt : R → R) (N : ℕ) (o : Option' R) (dt : R) (normals : ℕ → ℕ → R)
    (n : ℕ) (v : List R) (hN : 0 < N) (_hdt : 0 < dt)
    (hv : (simulate sqrt N o dt normals)[n]? = some (NpArr.vec v))
    (hn : n + 1 < N) :
    (simulate sqrt N o dt normals)[0]? =
      some (NpArr.vec ((List.range N).map
        (fun i => o.S_0 + o.r * dt + o.sigma * o.S_0 *
          (sqrt dt * normals 1 i)))) ∧
    (simulate sqrt N o dt normals)[n + 1]? =
      some (NpArr.vec (List.zipWith
        (fun p z => p + o.r * dt + o.sigma * o.S_0 * z)
        v (deltaVec sqrt dt normals N (n + 2)))) := by
  constructor
  · rw [simulate, simAux_get_zero sqrt o dt normals N N 1 _ hN,
      simStep_scalar]
    simp [deltaVec, List.map_map, Function.comp]
  · rw [simulate] at hv ⊢
    have h := simAux_get_succ sqrt o dt normals N N n 1 _ v hv hn
    have e : 1 + n + 1 = n + 2 := by omega
    rw [e] at h
    rw [h, simStep_vec]

/-- Witness for C5 at `N = 2`, `n = 0`, `dt = 1` over `ℚ`, with the first
row supplied concretely as `v0`. -/
theorem simulate_rows_recurrence_witness :
    ((0 : ℕ) < 2 ∧ (0 : ℚ) < 1 ∧
      (simulate qone 2 oC 1 normZero)[0]? = some (NpArr.vec v0) ∧
      0 + 1 < 2) ∧
    ((simulate qone 2 oC 1 normZero)[0]? =
      some (NpArr.vec ((List.range 2).map
        (fun i => oC.S_0 + oC.r * 1 + oC.sigma * oC.S_0 *
          (qone 1 * normZero 1 i)))) ∧
    (simulate qone 2 oC 1 normZero)[0 + 1]? =
      some (NpArr.vec (List.zipWith
        (fun p z => p + oC.r * 1 + oC.sigma * oC.S_0 * z)
        v0 (deltaVec qone 1 normZero 2 (0 + 2))))) :=
  ⟨⟨by norm_num, by norm_num, rfl, by norm_num⟩,
    simulate_rows_recurrence qone 2 oC 1 normZero 0 v0 (by norm_num)
      (by norm_num) rfl (by norm_num)⟩

/-- C6: on every non-empty array of simulated values,
`calc_expected_price` returns the arithmetic mean of the elementwise
payoffs times `e^(-r*T)`, with the payoff `max(v - K, 0)` for a call and
`max(K - v, 0)` otherwise; in particular, on an all-equal input `V` with
kind call and `K < V` the result is exactly `(V - K)*e^(-r*T)`. -/
theorem calc_expected_price_mean {R : Type} [LinearOrderedField R]
    (exp : R → R) (o : Option' R) (paths : List (List R)) (V : R)
    (hne : paths.flatten ≠ []) :
    calc_expected_price exp paths o =
      ((paths.flatten.map (payoffSpec o)).sum / (paths.flatten.length : R)) *
        exp (-(o.r * o.T)) ∧
    (o.putOrcall = "call" → o.K < V → (∀ x ∈ paths.flatten, x = V) →
      calc_expected_price exp paths o = (V - o.K) * exp (-(o.r * o.T))) := by
  have hd : (-1 : R) * o.r * o.T = -(o.r * o.T) := by ring
  have key : calc_expected_price exp paths o =
      ((paths.flatten.map (payoffSpec o)).sum / (paths.flatten.length : R)) *
        exp (-(o.r * o.T)) := by
    unfold calc_expected_price payoffSpec
    by_cases h : o.putOrcall = "call" <;>
      simp [h, hd, ← List.map_flatten]
  refine ⟨key, fun hc hK hall => ?_⟩
  rw [key]
  have hmap : ∀ y ∈ paths.flatten.map (payoffSpec o), y = V - o.K := by
    intro y hy
    obtain ⟨x, hx, rfl⟩ := List.mem_map.mp hy
    rw [hall x hx]
    unfold payoffSpec
    rw [if_pos hc]
    exact max_eq_left (by linarith)
  have hsum := List.sum_eq_card_nsmul (paths.flatten.map (payoffSpec o))
    (V - o.K) hmap
  rw [List.length_map] at hsum
  rw [hsum, nsmul_eq_mul, mul_comm ((paths.flatten.length : R)) (V - o.K),
    mul_div_assoc, div_self, mul_one]
  exact Nat.cast_ne_zero.mpr (fun h0 => hne (List.length_eq_zero.mp h0))

/-- Witness for C6 at the all-equal array `pathsW` (every entry `200`) and
the call option `oC` with strike `100 < 200`. -/
theorem calc_expected_price_mean_witness :
    pathsW.flatten ≠ [] ∧
    (calc_expected_price qid pathsW oC =
      ((pathsW.flatten.map (payoffSpec oC)).sum /
        (pathsW.flatten.length : ℚ)) * qid (-(oC.r * oC.T)) ∧
    (oC.putOrcall = "call" → oC.K < 200 → (∀ x ∈ pathsW.flatten, x = 200) →
      calc_expected_price qid pathsW oC =
        (200 - oC.K) * qid (-(oC.r * oC.T)))) :=
  ⟨by simp [pathsW], calc_expected_price_mean qid oC pathsW 200
    (by simp [pathsW])⟩

/-- C10: for every option, every `dt` and every stream of draws,
`simulate` with a requested count of `0` returns the empty sequence: the
loop body never executes. -/
theorem simulate_zero_empty {R : Type} [LinearOrderedField R] (sqrt : R → R)
    (o : Option' R) (dt : R) (normals : ℕ → ℕ → R) :
    simulate sqrt 0 o dt normals = [] := rfl

end MonteCarloPy
